import Mathlib

/-!
Shallow embedding of the color-annotation subsystem of the bifrost colored
compacted de Bruijn graph (src/ColorSet.hpp, src/ColoredCDBG.cpp, with the
mapping view of src/UnitigMap.tpp / CompactedDBG.hpp).

Machine words (`uintptr_t` / `size_t`) are modelled as `Nat` with explicit
`% 2 ^ 64` at the one place the source relies on unsigned wrap-around
(the iterator's `++it_setBits` starting from `0xffffffffffffffff`).

The heap compressed bitmap (`Roaring`, an external library) is modelled by
its abstract contents: a strictly ascending list of stored values, which is
exactly what its forward iterator produces.  A `UnitigColors` whose low two
tag bits are 0 holds a pointer to such a bitmap; every other state is the
raw 64-bit word `setBits`.

`ColorSet.tcc` (the bodies of UnitigColors::add, reverse, size, ...) is not
part of the sources; those operations are modelled from the spec and say so
in their doc comments.
-/

namespace Bifrost

/-- Flag value 0 of the UnitigColors tagged union: pointer to a compressed
bitmap (ColorSet.hpp line 375). -/
def ptrCompressedBitmap : Nat := 0

/-- Flag value 1: local 62-bit vector of colors (ColorSet.hpp line 376). -/
def localBitVectorColor : Nat := 1

/-- Flag value 2: single color stored in the word (ColorSet.hpp line 377). -/
def localSingleColor : Nat := 2

/-- Flag value 3: unoccupied color set (ColorSet.hpp line 378). -/
def unoccupiedFlag : Nat := 3

/-- Number of colors a local bit vector can hold: 64 bits minus the 2 flag
bits (ColorSet.hpp line 367). -/
def maxBitVectorIDs : Nat := 62

/-- The all-ones 64-bit sentinel `0xffffffffffffffff`. -/
def sentinel : Nat := 0xffffffffffffffff

/-- One mapping of (part of) a unitig, the fields of `UnitigMap` the color
subsystem reads (UnitigMap.tpp constructor, lines 4-7).  `head` stands for
the value of `um.getHead()` and `hashID` for `um.getData()->get()`, the
per-unitig DataAccessor byte; both are functions of the underlying graph,
carried here as fields of the mapping view. -/
structure UnitigMap where
  pos_unitig : Nat := 0
  dist : Nat := 0
  len : Nat := 0
  size : Nat := 0
  strand : Bool := true
  isEmpty : Bool := false
  head : Nat := 0
  hashID : Nat := 0
deriving DecidableEq, Repr

/-- The UnitigColors tagged union (ColorSet.hpp lines 383-387).  `word w` is
the raw `setBits` word for the three local states (flag = w % 4 ∈ {1,2,3});
`bitmap l` is the flag-0 state, the pointed-to Roaring bitmap abstracted as
the ascending list of its elements. -/
inductive UnitigColors where
  | word (setBits : Nat)
  | bitmap (elems : List Nat)
deriving DecidableEq, Repr

namespace UnitigColors

/-- `setBits & flagMask` (ColorSet.hpp line 380): the low two tag bits. -/
def flag : UnitigColors → Nat
  | .word w => w % 4
  | .bitmap _ => ptrCompressedBitmap

/-- The raw word, read only by the local (non-bitmap) states; the flag-0
state aliases the word with the bitmap pointer and never reads it as data. -/
def setBits : UnitigColors → Nat
  | .word w => w
  | .bitmap _ => 0

/-- `isUnoccupied` (ColorSet.hpp line 356). -/
def isUnoccupied (cs : UnitigColors) : Bool := cs.flag == unoccupiedFlag

/-- `isOccupied` (ColorSet.hpp line 357). -/
def isOccupied (cs : UnitigColors) : Bool := cs.flag != unoccupiedFlag

/-- `setOccupied` (ColorSet.hpp line 353): an unoccupied set becomes an
empty local bit vector; occupied sets are unchanged. -/
def setOccupied (cs : UnitigColors) : UnitigColors :=
  if cs.isUnoccupied then .word localBitVectorColor else cs

/-- Number of stored ColorKmerIds.  The iterator only consults it in the
flag-0 state, where it is the cardinality of the Roaring bitmap; the word
cases are modelled from the spec ("size() = count of distinct ColorKmerIds",
the body being in the missing ColorSet.tcc). -/
def size : UnitigColors → Nat
  | .bitmap l => l.length
  | .word w =>
      if w % 4 = localBitVectorColor then
        ((List.range maxBitVectorIDs).filter (fun i => (w >>> (i + 2)) % 2 == 1)).length
      else if w % 4 = localSingleColor then 1
      else 0

/-- Well-formedness of the model: a `word` state never carries the bitmap
flag (that state is `bitmap`), and fits in 64 bits; a bitmap's element list
is strictly ascending (the Roaring library invariant) and of physically
realisable length. -/
def WF : UnitigColors → Prop
  | .word w => w % 4 ≠ 0 ∧ w < 2 ^ 64
  | .bitmap l => l.Chain' (· < ·) ∧ l.length < 2 ^ 63

end UnitigColors

/-- State of `UnitigColors_const_iterator` (ColorSet.hpp lines 143-155).
`it_roar` is the Roaring iterator, abstracted as an index into the bitmap's
element list (list length = past-the-end).  The `cs` pointer is omitted:
iterators are only ever compared over the same UnitigColors here. -/
structure UCIterator where
  flag : Nat
  it_setBits : Nat
  cs_sz : Nat
  ck_id : Nat
  it_roar : Nat
deriving DecidableEq, Repr

/-- `operator==` (ColorSet.hpp lines 132-136), minus the `cs` pointer
comparison (always the same set here). -/
def iterEq (a b : UCIterator) : Bool :=
  a.flag == b.flag && a.cs_sz == b.cs_sz &&
    (if a.flag == ptrCompressedBitmap then a.it_roar == b.it_roar
     else a.it_setBits == b.it_setBits)

/-- The bit test of the local-bit-vector scan loop (ColorSet.hpp line 115):
`((setBits >> (it_setBits + 2)) & 0x1) != 0`. -/
def bvTest (w j : Nat) : Bool := (w >>> (j + 2)) % 2 == 1

/-- The `while (it_setBits < maxBitVectorIDs)` scan of `operator++`
(ColorSet.hpp lines 113-122), unrolled on an explicit iteration budget.
Starting from `j`, it returns the first index `< 62` whose bit is set in
`w >> 2`, or stops at the first index `≥ 62`.  The loop runs at most 62
times from any start, so a budget of 62 reproduces it exactly. -/
def scanBitsAux (w : Nat) : Nat → Nat → Nat
  | 0, j => j
  | n + 1, j =>
      if j < maxBitVectorIDs then
        if bvTest w j then j else scanBitsAux w n (j + 1)
      else j

/-- The scan loop with its exact budget. -/
def scanBits (w j : Nat) : Nat := scanBitsAux w maxBitVectorIDs j

/-- `operator++` (ColorSet.hpp lines 100-127).  `it_setBits` is a `size_t`,
so its increment wraps at `2 ^ 64` (the constructor starts it at the
all-ones sentinel). -/
def iterStep (cs : UnitigColors) (it : UCIterator) : UCIterator :=
  if it.it_setBits == it.cs_sz then it
  else
    let s := (it.it_setBits + 1) % 2 ^ 64
    if it.flag == ptrCompressedBitmap then
      match cs with
      | .bitmap l =>
          let r := if s != 0 then it.it_roar + 1 else it.it_roar
          let ck := if r < l.length then l.getD r 0 else it.ck_id
          { it with it_setBits := s, it_roar := r, ck_id := ck }
      | .word _ => { it with it_setBits := s }
    else if it.flag == localBitVectorColor then
      let j := scanBits cs.setBits s
      { it with it_setBits := j, ck_id := if j < maxBitVectorIDs then j else it.ck_id }
    else if it.flag == localSingleColor then
      { it with it_setBits := s, ck_id := cs.setBits >>> 2 }
    else
      { it with it_setBits := s }

/-- The private iterator constructor (ColorSet.hpp lines 157-170). -/
def mkIterator (cs : UnitigColors) (beg : Bool) : UCIterator :=
  let f := cs.flag
  let sz := if f == ptrCompressedBitmap then cs.size
            else if f == localSingleColor then 1 else maxBitVectorIDs
  { flag := f
    it_setBits := if beg then sentinel else sz
    cs_sz := sz
    ck_id := 0
    it_roar := if f == ptrCompressedBitmap then (if beg then 0 else cs.size) else 0 }

namespace UnitigColors

/-- `begin()` (ColorSet.hpp lines 333-337): construct at the start and
pre-increment once. -/
def begin (cs : UnitigColors) : UCIterator := iterStep cs (mkIterator cs true)

/-- `end()` (ColorSet.hpp line 342). -/
def endIter (cs : UnitigColors) : UCIterator := mkIterator cs false

/-- The ck_ids produced by repeatedly dereferencing and incrementing an
iterator until it compares equal to `end()`, on an explicit fuel. -/
def collect (cs : UnitigColors) (it : UCIterator) : Nat → List Nat
  | 0 => []
  | n + 1 =>
      if iterEq it cs.endIter then []
      else it.ck_id :: collect cs (iterStep cs it) n

/-- Fuel on which `collect` from `begin` always reaches `end`: a word state
iterates over at most 62 positions, a bitmap over its cardinality. -/
def iterFuel : UnitigColors → Nat
  | .word _ => 64
  | .bitmap l => l.length + 1

/-- The full iteration sequence of a UnitigColors, `begin()` to `end()`. -/
def toList (cs : UnitigColors) : List Nat := collect cs cs.begin cs.iterFuel

end UnitigColors

/-- Insertion into an ascending duplicate-free list, the abstract effect of
inserting into the Roaring bitmap. -/
def sortedInsert (x : Nat) : List Nat → List Nat
  | [] => [x]
  | y :: ys => if x < y then x :: y :: ys
               else if x = y then y :: ys
               else y :: sortedInsert x ys

/-- The ColorKmerIds held by a local bit vector word, in ascending order
(bit `i + 2` of the word set means id `i` is present). -/
def bitsToList (w : Nat) : List Nat :=
  (List.range maxBitVectorIDs).filter (fun i => bvTest w i)

/-- Whether ColorKmerId `j` is stored in a UnitigColors, reading the tagged
union by the representation documented at ColorSet.hpp lines 369-378: a
flag-1 word stores id i as bit i+2, a flag-2 word stores the single id
`setBits >> 2`, a flag-3 word (Unoccupied) stores nothing, and a flag-0
state stores its compressed bitmap's elements. -/
def UnitigColors.memId (cs : UnitigColors) (j : Nat) : Bool :=
  match cs with
  | .word w =>
      if w % 4 = localBitVectorColor then bvTest w j
      else if w % 4 = localSingleColor then j == w >>> 2
      else false
  | .bitmap l => l.contains j

/-- The states reachable by chains of `addId` from a default-constructed
(unoccupied) ColorSet: still unoccupied, a local bit vector word within
the 64-bit machine word, or a bitmap with ascending storage. -/
def AccOK (acc : UnitigColors) : Prop :=
  acc = .word unoccupiedFlag ∨
  (∃ m, acc = .word m ∧ m % 4 = 1 ∧ m < 2 ^ 64) ∨
  (∃ l, acc = .bitmap l ∧ l.Pairwise (· < ·))

/-- Modelled from the spec: insertion of one ColorKmerId, the promotion
rules of UnitigColors::add (spec 4.1; the body is in the missing
ColorSet.tcc).  Unoccupied becomes an empty bit vector and retries; a bit
vector takes ids < 62 in place and otherwise promotes to a bitmap carrying
its existing bits; Single(x) ignores a duplicate and otherwise promotes to
a bitmap holding both; a bitmap inserts. -/
def addId (cs : UnitigColors) (id : Nat) : UnitigColors :=
  match cs with
  | .bitmap l => .bitmap (sortedInsert id l)
  | .word w =>
      if w % 4 = unoccupiedFlag then
        if id < maxBitVectorIDs then .word ((1 <<< (id + 2)) ||| localBitVectorColor)
        else .bitmap [id]
      else if w % 4 = localBitVectorColor then
        if id < maxBitVectorIDs then .word (w ||| (1 <<< (id + 2)))
        else .bitmap (sortedInsert id (bitsToList w))
      else
        if (w >>> 2) = id then .word w
        else .bitmap (sortedInsert id (sortedInsert (w >>> 2) []))

/-- Modelled from the spec: UnitigColors::add(um, color_id) (spec 4.1; body
in the missing ColorSet.tcc).  For each k-mer position p in
[um.dist, um.dist + um.len) it inserts ColorKmerId color_id * K + p on the
forward strand, or the reverse-complement position K - 1 - p when
um.strand is false, where K = um.size - k + 1 is the k-mer count of the
mapped unitig (k the graph's k-mer length). -/
def UnitigColors.add (cs : UnitigColors) (k : Nat) (um : UnitigMap) (color_id : Nat) :
    UnitigColors :=
  let K := um.size - k + 1
  (List.range um.len).foldl
    (fun c i =>
      let p := um.dist + i
      addId c (color_id * K + (if um.strand then p else K - 1 - p)))
    cs

/-- Modelled from the spec: UnitigColors::reverse (spec 4.1; body in the
missing ColorSet.tcc).  `reverse(L)` returns a new UnitigColors whose
ColorKmerIds `color * K + pos` are remapped to `color * K + (K - 1 - pos)`,
with `K = L - k + 1`. -/
def UnitigColors.reverse (cs : UnitigColors) (k L : Nat) : UnitigColors :=
  let K := L - k + 1
  cs.toList.foldl
    (fun c id =>
      let color := id / K
      let pos := id % K
      addId c (color * K + (K - 1 - pos)))
    (.word localBitVectorColor)

/-- Where a unitig's UnitigColors lives: a slot of the dense `color_sets`
array, or the overflow hash-table entry of a head k-mer. -/
inductive ColorSetLoc where
  | slot (i : Nat)
  | overflow (head : Nat)
deriving DecidableEq, Repr

/-- The color storage owned by ColoredCDBG (ColoredCDBG.cpp): the dense
`color_sets` array (`allocated` models `color_sets != nullptr`, with
`nb_color_sets = color_sets.length`), the `km_overflow` hash table as an
association list, the 256 hash seeds, and the k-mer hash function
(`hashKmer head seed` models `head.hash(seed)`). -/
structure ColorStorage where
  allocated : Bool
  color_sets : List UnitigColors
  km_overflow : List (Nat × UnitigColors)
  seeds : Nat → Nat
  hashKmer : Nat → Nat → Nat

/-- `km_overflow.find(head)` as an association-list lookup. -/
def lookupOverflow (st : ColorStorage) (head : Nat) : Option UnitigColors :=
  (st.km_overflow.find? (fun e => e.1 == head)).map (fun e => e.2)

/-- ColoredCDBG::getColorSet (ColoredCDBG.cpp lines 332-352; the const
overload, lines 354-372, computes the same location).  Returns the location
of the mapping's UnitigColors, or none where the source returns nullptr. -/
def getColorSet (st : ColorStorage) (um : UnitigMap) : Option ColorSetLoc :=
  if !um.isEmpty && st.allocated then
    if um.hashID = 0 then
      if (st.km_overflow.find? (fun e => e.1 == um.head)).isSome then
        some (.overflow um.head)
      else none
    else
      some (.slot (st.hashKmer um.head (st.seeds (um.hashID - 1)) % st.color_sets.length))
  else none

/-- Dereference a location (the source works through the returned
pointer). -/
def readLoc (st : ColorStorage) : ColorSetLoc → UnitigColors
  | .slot i => st.color_sets.getD i (.word unoccupiedFlag)
  | .overflow h => (lookupOverflow st h).getD (.word unoccupiedFlag)

/-- Assign through a location (the source writes through the returned
pointer). -/
def writeLoc (st : ColorStorage) (loc : ColorSetLoc) (cs : UnitigColors) : ColorStorage :=
  match loc with
  | .slot i => { st with color_sets := st.color_sets.set i cs }
  | .overflow h =>
      { st with km_overflow := st.km_overflow.map (fun e => if e.1 == h then (e.1, cs) else e) }

/-- ColoredCDBG::setColor (ColoredCDBG.cpp lines 168-183): locate the
mapping's color set, add the color to it and return true; return false and
leave the storage unchanged when the mapping is empty, the array is not
allocated, or no color set is found. -/
def setColor (k : Nat) (st : ColorStorage) (um : UnitigMap) (color_id : Nat) :
    Bool × ColorStorage :=
  if !um.isEmpty && st.allocated then
    match getColorSet st um with
    | some loc => (true, writeLoc st loc ((readLoc st loc).add k um color_id))
    | none => (false, st)
  else (false, st)

/-- The mutable locals of the run-grouping loops of ColoredCDBG::joinColors
(ColoredCDBG.cpp lines 194-286): the accumulated new color set, the dist
and len fields of the fake mapping being grown, and the previous element's
color id and k-mer distance. -/
structure RunState where
  new_cs : UnitigColors
  dist : Nat
  len : Nat
  prev_color : Nat
  prev_dist : Nat

/-- One iteration of a joinColors grouping loop (ColoredCDBG.cpp lines
225-241 resp. 268-284).  `off` is 0 for the destination half and
`um_dest.size` for the source half; `sizeNew` and `strand` are the fields
of the fake mapping the loop mutates.  Note the source flushes a finished
run with the NEW element's color id (`new_cs.add(new_um, color_id)`), not
the run's own. -/
def runStep (k sizeNew : Nat) (strand : Bool) (km_sz off : Nat)
    (st : RunState) (id : Nat) : RunState :=
  let color_id := id / km_sz
  let km_dist := id - color_id * km_sz
  if color_id ≠ st.prev_color ∨ km_dist ≠ st.prev_dist + 1 then
    { new_cs := st.new_cs.add k
        { pos_unitig := 0, dist := st.dist, len := st.len, size := sizeNew,
          strand := strand, isEmpty := false, head := 0, hashID := 0 } color_id
      dist := km_dist + off
      len := 1
      prev_color := color_id
      prev_dist := km_dist }
  else
    { st with len := st.len + 1, prev_color := color_id, prev_dist := km_dist }

/-- One half of ColoredCDBG::joinColors (ColoredCDBG.cpp lines 211-243 for
the destination, 254-286 for the source): iterate the ids of one input
color set, grouping runs, and re-add each run into `cs0` against a fake
mapping of total size `sizeNew` at position offset `off`.  `prevc0` is the
value the shared `prev_color_id` local holds on entry (0xffffffffffffffff,
or whatever the destination half left when the source set is empty); it is
only read by the final flush, whose `dist + len != 0` guard fails exactly
when the iteration was empty. -/
def joinHalf (k sizeNew : Nat) (strand : Bool) (km_sz off : Nat)
    (ids : List Nat) (cs0 : UnitigColors) (prevc0 : Nat) : UnitigColors :=
  match ids with
  | [] =>
      if (0 : Nat) + 0 ≠ 0 then
        cs0.add k { pos_unitig := 0, dist := 0, len := 0, size := sizeNew,
                    strand := strand, isEmpty := false, head := 0, hashID := 0 } prevc0
      else cs0
  | id0 :: rest =>
      let c0 := id0 / km_sz
      let d0 := id0 - c0 * km_sz
      let st := rest.foldl (runStep k sizeNew strand km_sz off)
        { new_cs := cs0, dist := d0 + off, len := 1, prev_color := c0, prev_dist := d0 }
      if st.dist + st.len ≠ 0 then
        st.new_cs.add k { pos_unitig := 0, dist := st.dist, len := st.len, size := sizeNew,
                          strand := strand, isEmpty := false, head := 0, hashID := 0 }
          st.prev_color
      else st.new_cs

/-- The merge computation of ColoredCDBG::joinColors (ColoredCDBG.cpp lines
194-286): reverse each input whose mapping is on the negative strand, then
re-emit the destination's runs at offset 0 and the source's runs at offset
`um_dest.size` into a fresh color set indexed by the concatenated size
`um_dest.size + um_src.size`. -/
def joinMerge (k : Nat) (um_dest um_src : UnitigMap)
    (cs_dest cs_src : UnitigColors) : UnitigColors :=
  let um_dest_km_sz := um_dest.size - k + 1
  let um_src_km_sz := um_src.size - k + 1
  let sizeNew := um_dest.size + um_src.size
  let dIn := if um_dest.strand then cs_dest else cs_dest.reverse k um_dest.size
  let sIn := if um_src.strand then cs_src else cs_src.reverse k um_src.size
  let cs1 := joinHalf k sizeNew um_dest.strand um_dest_km_sz 0 dIn.toList
    (.word unoccupiedFlag) sentinel
  joinHalf k sizeNew um_src.strand um_src_km_sz um_dest.size sIn.toList cs1 sentinel

/-- ColoredCDBG::joinColors (ColoredCDBG.cpp lines 185-295).  When
`um_dest.strand` is false the source redirects its `color_set_dest` pointer
to the local `csd_rev` before iterating, so the final
`*color_set_dest = new_cs` assigns into that local and the stored color set
is left untouched; the embedding returns the storage unchanged in that
branch. -/
def joinColors (k : Nat) (st : ColorStorage) (um_dest um_src : UnitigMap) :
    Bool × ColorStorage :=
  if !um_dest.isEmpty && !um_src.isEmpty && st.allocated then
    match getColorSet st um_dest, getColorSet st um_src with
    | some locd, some locs =>
        let new_cs := joinMerge k um_dest um_src (readLoc st locd) (readLoc st locs)
        if um_dest.strand then (true, writeLoc st locd new_cs) else (true, st)
    | _, _ => (false, st)
  else (false, st)

/-- ColoredCDBG::extractColors (ColoredCDBG.cpp lines 297-330): walk the
source mapping's colors once; every id whose k-mer distance falls in
[um.dist, um.dist + um.len) is re-added against a fake mapping of size
um.len (and the mapping's strand) at distance `km_dist - um.dist`.  The
shadowed outer iterator of the source (line 312) is dead and has no
semantic effect; the loop that runs is the single inner one. -/
def extractColors (k : Nat) (st : ColorStorage) (um : UnitigMap) : UnitigColors :=
  if !um.isEmpty && st.allocated then
    match getColorSet st um with
    | some loc =>
        let cs := readLoc st loc
        let dEnd := um.dist + um.len
        let um_km_sz := um.size - k + 1
        cs.toList.foldl
          (fun new_cs id =>
            let color_id := id / um_km_sz
            let km_dist := id - color_id * um_km_sz
            if um.dist ≤ km_dist ∧ km_dist < dEnd then
              new_cs.add k
                { pos_unitig := 0, dist := km_dist - um.dist, len := 1, size := um.len,
                  strand := um.strand, isEmpty := false, head := 0, hashID := 0 } color_id
            else new_cs)
          (.word unoccupiedFlag)
    | none => .word unoccupiedFlag
  else .word unoccupiedFlag

/-- The state ColoredCDBG::initColorSets threads through its unitig loop
(ColoredCDBG.cpp lines 46-76): the `color_sets` slots, the `km_overflow`
table, and the (head, DataAccessor byte) pairs written by
`unitig.setData(&hid)`, in graph iteration order. -/
structure InitState where
  slots : List UnitigColors
  overflow : List (Nat × UnitigColors)
  assigned : List (Nat × Nat)

/-- One iteration of initColorSets (ColoredCDBG.cpp lines 57-73): probe
seeds 0..H-1 for the first hash slot that is unoccupied; claim it and
record byte i+1, or fall back to the overflow table with byte 0, inserting
a default-constructed (unoccupied) ColorSet keyed by the head k-mer. -/
def initStep (hashKmer : Nat → Nat → Nat) (seeds : Nat → Nat) (U H : Nat)
    (st : InitState) (head : Nat) : InitState :=
  match (List.range H).find?
      (fun i => (st.slots.getD (hashKmer head (seeds i) % U) (.word unoccupiedFlag)).isUnoccupied) with
  | some i =>
      { slots := st.slots.set (hashKmer head (seeds i) % U)
          ((st.slots.getD (hashKmer head (seeds i) % U) (.word unoccupiedFlag)).setOccupied)
        overflow := st.overflow
        assigned := st.assigned ++ [(head, i + 1)] }
  | none =>
      { slots := st.slots
        overflow := st.overflow ++ [(head, .word unoccupiedFlag)]
        assigned := st.assigned ++ [(head, 0)] }

/-- ColoredCDBG::initColorSets (ColoredCDBG.cpp lines 46-76) over the list
of unitig head k-mers in graph order: `nb_color_sets = size()` slots, all
default-constructed unoccupied, then the claiming loop. -/
def initColorSets (hashKmer : Nat → Nat → Nat) (seeds : Nat → Nat) (H : Nat)
    (heads : List Nat) : InitState :=
  heads.foldl (initStep hashKmer seeds heads.length H)
    { slots := List.replicate heads.length (.word unoccupiedFlag)
      overflow := []
      assigned := [] }

/-- The slot index a nonzero DataAccessor byte resolves to (shared by
initColorSets and getColorSet): `hash_{byte-1}(head) % U`. -/
def slotOf (hashKmer : Nat → Nat → Nat) (seeds : Nat → Nat) (U : Nat) (p : Nat × Nat) : Nat :=
  hashKmer p.1 (seeds (p.2 - 1)) % U

/-- The chunked reader loop of ColoredCDBG::mapColors (ColoredCDBG.cpp
lines 120-163), tracking only the color each sequence is tagged with.  A
read is represented by the id of the file it came from; `FQ.read_next(s,
file_id)` overwrites the single `file_id` local, which the worker lambda
captures by reference, so every sequence of a chunk is colored with the
file id of the chunk's last read.  The budget is the read count: each pass
consumes `chunk_size ≥ 1` reads (with `chunk_size = 0` the source loops
forever; the model stops). -/
def chunkColorsAux (chunk_size : Nat) : Nat → List Nat → List Nat
  | 0, _ => []
  | _, [] => []
  | fuel + 1, r :: rs =>
      let chunk := (r :: rs).take chunk_size
      List.replicate chunk.length (chunk.getLastD 0) ++
        chunkColorsAux chunk_size fuel ((r :: rs).drop chunk_size)

/-- The color applied to each input sequence by mapColors, in input order:
sequence i of the input stream (whose source file id is `reads[i]`) has all
its mapped k-mers colored with `(chunkColors chunk_size reads)[i]`. -/
def chunkColors (chunk_size : Nat) (reads : List Nat) : List Nat :=
  chunkColorsAux chunk_size reads.length reads

/-- A two-unitig storage for exercising joinColors and extractColors: slot
0 holds the destination's colors {0,1,2,3} (4 k-mers), slot 1 the source's
{3,4,5} (3 k-mers); the hash of a head k-mer is the k-mer itself, so unitig
heads 0 and 1 with byte 1 resolve to slots 0 and 1. -/
def joinDemoStorage : ColorStorage :=
  { allocated := true
    color_sets := [.word ((15 <<< 2) ||| 1), .word ((56 <<< 2) ||| 1)]
    km_overflow := []
    seeds := fun _ => 0
    hashKmer := fun h _ => h }

/-- ColorKmer_ID::getColorID (ColorSet.hpp lines 188-197).  The Bool
records whether the invalid-id error was printed to cerr. -/
def getColorID (ck_id length_unitig_km : Nat) : Bool × Nat :=
  if ck_id = sentinel then (true, ck_id) else (false, ck_id / length_unitig_km)

/-- ColorKmer_ID::getKmerPosition (ColorSet.hpp lines 204-213). -/
def getKmerPosition (ck_id length_unitig_km : Nat) : Bool × Nat :=
  if ck_id = sentinel then (true, ck_id) else (false, ck_id % length_unitig_km)

/-! ### Characterization of the iterator -/

theorem bvTest_eq_testBit (x j : Nat) : bvTest x j = x.testBit (j + 2) := by
  apply Bool.eq_iff_iff.mpr
  simp [bvTest, Nat.testBit_to_div_mod, Nat.shiftRight_eq_div_pow]

theorem scanBitsAux_ge (w : Nat) : ∀ n j, j ≤ scanBitsAux w n j := by
  intro n
  induction n with
  | zero => intro j; simp [scanBitsAux]
  | succ n ih =>
      intro j
      simp only [scanBitsAux]
      by_cases hj : j < maxBitVectorIDs
      · by_cases ht : bvTest w j
        · simp [hj, ht]
        · simp only [hj, ht, if_true, if_false, Bool.false_eq_true]
          exact Nat.le_trans (Nat.le_succ j) (ih (j + 1))
      · simp [hj]

theorem scanBitsAux_le (w : Nat) :
    ∀ n j, j ≤ maxBitVectorIDs → scanBitsAux w n j ≤ maxBitVectorIDs := by
  intro n
  induction n with
  | zero => intro j hj; simpa [scanBitsAux] using hj
  | succ n ih =>
      intro j hj
      simp only [scanBitsAux]
      by_cases hlt : j < maxBitVectorIDs
      · by_cases ht : bvTest w j
        · simpa [hlt, ht] using hj
        · simp only [hlt, ht, if_true, if_false, Bool.false_eq_true]
          exact ih (j + 1) hlt
      · simpa [hlt] using hj

theorem scanBitsAux_found (w : Nat) :
    ∀ n j, maxBitVectorIDs - j ≤ n → scanBitsAux w n j < maxBitVectorIDs →
      bvTest w (scanBitsAux w n j) = true := by
  intro n
  induction n with
  | zero =>
      intro j hn hlt
      simp only [scanBitsAux] at hlt
      omega
  | succ n ih =>
      intro j hn hlt
      simp only [scanBitsAux] at hlt ⊢
      by_cases hj : j < maxBitVectorIDs
      · by_cases ht : bvTest w j
        · simp [hj, ht]
        · simp only [hj, ht, if_true, if_false, Bool.false_eq_true] at hlt ⊢
          exact ih (j + 1) (by omega) hlt
      · simp only [hj, if_false] at hlt

/-- Splitting the ascending enumeration of set bits at the next one the
scan loop finds. -/
theorem filter_range_split (w : Nat) :
    ∀ n j, maxBitVectorIDs - j ≤ n → j ≤ maxBitVectorIDs →
      List.filter (bvTest w) (List.range' j (maxBitVectorIDs - j)) =
        (if scanBitsAux w n j < maxBitVectorIDs then
          scanBitsAux w n j ::
            List.filter (bvTest w)
              (List.range' (scanBitsAux w n j + 1) (maxBitVectorIDs - (scanBitsAux w n j + 1)))
        else []) := by
  intro n
  induction n with
  | zero =>
      intro j hn hj
      have hje : j = maxBitVectorIDs := by omega
      subst hje
      simp [scanBitsAux]
  | succ n ih =>
      intro j hn hj
      by_cases hlt : j < maxBitVectorIDs
      · have hrange : maxBitVectorIDs - j = (maxBitVectorIDs - (j + 1)) + 1 := by omega
        rw [hrange, List.range'_succ]
        by_cases ht : bvTest w j
        · simp only [scanBitsAux, hlt, ht, if_true]
          simp [List.filter_cons, ht, hlt]
        · simp only [scanBitsAux, hlt, ht, if_true, if_false, Bool.false_eq_true]
          rw [List.filter_cons_of_neg (by simpa using ht)]
          exact ih (j + 1) (by omega) hlt
      · have hje : j = maxBitVectorIDs := by omega
        subst hje
        simp [scanBitsAux]

theorem scanBits_ge (w j : Nat) : j ≤ scanBits w j := scanBitsAux_ge w _ j

theorem scanBits_le (w j : Nat) (hj : j ≤ maxBitVectorIDs) : scanBits w j ≤ maxBitVectorIDs :=
  scanBitsAux_le w _ j hj

theorem scanBits_found (w j : Nat) (hlt : scanBits w j < maxBitVectorIDs) :
    bvTest w (scanBits w j) = true :=
  scanBitsAux_found w _ j (Nat.sub_le _ _) hlt

theorem filter_scanBits_split (w j : Nat) (hj : j ≤ maxBitVectorIDs) :
    List.filter (bvTest w) (List.range' j (maxBitVectorIDs - j)) =
      (if scanBits w j < maxBitVectorIDs then
        scanBits w j ::
          List.filter (bvTest w)
            (List.range' (scanBits w j + 1) (maxBitVectorIDs - (scanBits w j + 1)))
      else []) :=
  filter_range_split w _ j (Nat.sub_le _ _) hj

theorem collect_succ (cs : UnitigColors) (it : UCIterator) (n : Nat) :
    cs.collect it (n + 1) =
      if iterEq it cs.endIter then [] else it.ck_id :: cs.collect (iterStep cs it) n := rfl

theorem endIter_bv (w : Nat) (hw : w % 4 = 1) :
    (UnitigColors.word w).endIter = ⟨1, maxBitVectorIDs, maxBitVectorIDs, 0, 0⟩ := by
  simp [UnitigColors.endIter, mkIterator, UnitigColors.flag, hw,
    ptrCompressedBitmap, localSingleColor]

theorem iterEq_bv_end (w p ck : Nat) (hw : w % 4 = 1) :
    iterEq ⟨1, p, maxBitVectorIDs, ck, 0⟩ (UnitigColors.word w).endIter =
      (p == maxBitVectorIDs) := by
  rw [endIter_bv w hw]
  simp [iterEq, ptrCompressedBitmap]

theorem iterStep_bv (w p ck : Nat) (_hw : w % 4 = 1) (hp : p < maxBitVectorIDs) :
    iterStep (.word w) ⟨1, p, maxBitVectorIDs, ck, 0⟩ =
      ⟨1, scanBits w (p + 1), maxBitVectorIDs,
        if scanBits w (p + 1) < maxBitVectorIDs then scanBits w (p + 1) else ck, 0⟩ := by
  have hne : (p == maxBitVectorIDs) = false := by
    simp only [beq_eq_false_iff_ne]; omega
  have hmod : (p + 1) % 18446744073709551616 = p + 1 :=
    Nat.mod_eq_of_lt (by simp only [maxBitVectorIDs] at hp; omega)
  simp [iterStep, hne, hmod, UnitigColors.setBits, ptrCompressedBitmap,
    localBitVectorColor]

theorem collect_bitvec_from (w : Nat) (hw : w % 4 = 1) :
    ∀ n j ck, maxBitVectorIDs - j ≤ n → j ≤ maxBitVectorIDs →
      (scanBits w j < maxBitVectorIDs → ck = scanBits w j) →
      UnitigColors.collect (.word w) ⟨1, scanBits w j, maxBitVectorIDs, ck, 0⟩ (n + 1) =
        List.filter (bvTest w) (List.range' j (maxBitVectorIDs - j)) := by
  intro n
  induction n with
  | zero =>
      intro j ck hn hj hck
      have hj62 : j = maxBitVectorIDs := by omega
      subst hj62
      have hs : scanBits w maxBitVectorIDs = maxBitVectorIDs :=
        Nat.le_antisymm (scanBits_le w _ le_rfl) (scanBits_ge w _)
      rw [collect_succ, iterEq_bv_end w _ _ hw, hs]
      simp
  | succ n ih =>
      intro j ck hn hj hck
      by_cases hp : scanBits w j < maxBitVectorIDs
      · have hckv := hck hp
        subst hckv
        have hjlt : j < maxBitVectorIDs := Nat.lt_of_le_of_lt (scanBits_ge w j) hp
        have hne : (scanBits w j == maxBitVectorIDs) = false := by
          simp only [beq_eq_false_iff_ne]; omega
        rw [filter_scanBits_split w j hj, if_pos hp]
        rw [collect_succ, iterEq_bv_end w _ _ hw, hne, if_neg (by simp),
          iterStep_bv w _ _ hw hp]
        rw [ih (scanBits w j + 1)
          (if scanBits w (scanBits w j + 1) < maxBitVectorIDs then
            scanBits w (scanBits w j + 1) else scanBits w j)
          (by have := scanBits_ge w j
              simp only [maxBitVectorIDs] at hn hp ⊢
              omega)
          (by simp only [maxBitVectorIDs] at hp ⊢; omega)
          (fun h => by simp [h])]
      · have hs : scanBits w j = maxBitVectorIDs :=
          Nat.le_antisymm (scanBits_le w j hj) (Nat.le_of_not_lt hp)
        rw [filter_scanBits_split w j hj, if_neg hp]
        rw [collect_succ, iterEq_bv_end w _ _ hw, hs]
        simp

/-- Iterating a local-bit-vector UnitigColors yields exactly the indices of
its set bits, in ascending order. -/
theorem toList_bitvec (w : Nat) (hw : w % 4 = 1) :
    (UnitigColors.word w).toList = bitsToList w := by
  have hbeg : (UnitigColors.word w).begin =
      ⟨1, scanBits w 0, maxBitVectorIDs,
        if scanBits w 0 < maxBitVectorIDs then scanBits w 0 else 0, 0⟩ := by
    simp [UnitigColors.begin, mkIterator, iterStep, UnitigColors.flag,
      UnitigColors.setBits, hw, ptrCompressedBitmap, localSingleColor,
      localBitVectorColor, sentinel, maxBitVectorIDs]
  have hmain := collect_bitvec_from w hw 63 0
    (if scanBits w 0 < maxBitVectorIDs then scanBits w 0 else 0)
    (by simp [maxBitVectorIDs]) (by simp) (fun h => by simp [h])
  rw [UnitigColors.toList, hbeg]
  simp only [UnitigColors.iterFuel]
  rw [show (64 : Nat) = 63 + 1 from rfl, hmain]
  simp [bitsToList, List.range_eq_range']

/-- Iterating a single-color UnitigColors yields exactly its stored id. -/
theorem toList_single (w : Nat) (hw : w % 4 = 2) :
    (UnitigColors.word w).toList = [w >>> 2] := by
  have hend : (UnitigColors.word w).endIter = ⟨2, 1, 1, 0, 0⟩ := by
    simp [UnitigColors.endIter, mkIterator, UnitigColors.flag, hw,
      ptrCompressedBitmap, localSingleColor]
  have hbeg : (UnitigColors.word w).begin = ⟨2, 0, 1, w >>> 2, 0⟩ := by
    simp [UnitigColors.begin, mkIterator, iterStep, UnitigColors.flag,
      UnitigColors.setBits, hw, ptrCompressedBitmap, localSingleColor,
      localBitVectorColor, sentinel]
  have hstep : iterStep (.word w) ⟨2, 0, 1, w >>> 2, 0⟩ = ⟨2, 1, 1, w >>> 2, 0⟩ := by
    simp [iterStep, UnitigColors.setBits, ptrCompressedBitmap,
      localBitVectorColor, localSingleColor]
  rw [UnitigColors.toList, hbeg]
  simp only [UnitigColors.iterFuel]
  rw [show (64 : Nat) = 62 + 1 + 1 from rfl, collect_succ, hend]
  rw [if_neg (by simp [iterEq, ptrCompressedBitmap]), hstep, collect_succ, hend]
  rw [if_pos (by simp [iterEq, ptrCompressedBitmap])]

theorem collect_unoccupied_from (w : Nat) (hw : w % 4 = 3) :
    ∀ n j, maxBitVectorIDs - j ≤ n → j ≤ maxBitVectorIDs →
      UnitigColors.collect (.word w) ⟨3, j, maxBitVectorIDs, 0, 0⟩ (n + 1) =
        List.replicate (maxBitVectorIDs - j) 0 := by
  have hend : (UnitigColors.word w).endIter =
      ⟨3, maxBitVectorIDs, maxBitVectorIDs, 0, 0⟩ := by
    simp [UnitigColors.endIter, mkIterator, UnitigColors.flag, hw,
      ptrCompressedBitmap, localSingleColor]
  intro n
  induction n with
  | zero =>
      intro j hn hj
      have hj62 : j = maxBitVectorIDs := by omega
      subst hj62
      rw [collect_succ, hend, if_pos (by simp [iterEq, ptrCompressedBitmap])]
      simp
  | succ n ih =>
      intro j hn hj
      by_cases hjlt : j < maxBitVectorIDs
      · have hne : (j == maxBitVectorIDs) = false := by
          simp only [beq_eq_false_iff_ne]; omega
        have hmod : (j + 1) % 18446744073709551616 = j + 1 :=
          Nat.mod_eq_of_lt (by simp only [maxBitVectorIDs] at hjlt; omega)
        have hstep : iterStep (.word w) ⟨3, j, maxBitVectorIDs, 0, 0⟩ =
            ⟨3, j + 1, maxBitVectorIDs, 0, 0⟩ := by
          simp [iterStep, hne, hmod, UnitigColors.setBits, ptrCompressedBitmap,
            localBitVectorColor, localSingleColor]
        have hrep : maxBitVectorIDs - j = (maxBitVectorIDs - (j + 1)) + 1 := by omega
        rw [collect_succ, hend, if_neg (by simp [iterEq, ptrCompressedBitmap, hne]),
          hstep, ih (j + 1) (by omega) hjlt, hrep, List.replicate_succ]
      · have hj62 : j = maxBitVectorIDs := by omega
        subst hj62
        rw [collect_succ, hend, if_pos (by simp [iterEq, ptrCompressedBitmap])]
        simp

/-- Iterating an Unoccupied UnitigColors does NOT stop immediately: the
constructor sets `cs_sz` to 62, `operator++` takes none of the three flag
branches, and 62 dereferences of the initial `ck_id = 0` happen before
`it_setBits` reaches `cs_sz`. -/
theorem toList_unoccupied (w : Nat) (hw : w % 4 = 3) :
    (UnitigColors.word w).toList = List.replicate maxBitVectorIDs 0 := by
  have hbeg : (UnitigColors.word w).begin = ⟨3, 0, maxBitVectorIDs, 0, 0⟩ := by
    simp [UnitigColors.begin, mkIterator, iterStep, UnitigColors.flag,
      UnitigColors.setBits, hw, ptrCompressedBitmap, localSingleColor,
      localBitVectorColor, sentinel, maxBitVectorIDs]
  rw [UnitigColors.toList, hbeg]
  simp only [UnitigColors.iterFuel]
  rw [show (64 : Nat) = 63 + 1 from rfl,
    collect_unoccupied_from w hw 63 0 (by simp [maxBitVectorIDs]) (by simp)]
  simp

theorem endIter_bitmap (l : List Nat) :
    (UnitigColors.bitmap l).endIter = ⟨0, l.length, l.length, 0, l.length⟩ := by
  simp [UnitigColors.endIter, mkIterator, UnitigColors.flag, UnitigColors.size,
    ptrCompressedBitmap]

theorem iterEq_bitmap_end (l : List Nat) (r s ck : Nat) :
    iterEq ⟨0, s, l.length, ck, r⟩ (UnitigColors.bitmap l).endIter =
      (r == l.length) := by
  rw [endIter_bitmap]
  simp [iterEq, ptrCompressedBitmap]

theorem collect_bitmap_from (l : List Nat) (hl : l.length < 2 ^ 63) :
    ∀ n r ck, l.length - r ≤ n → r ≤ l.length → (r < l.length → ck = l.getD r 0) →
      UnitigColors.collect (.bitmap l) ⟨0, r, l.length, ck, r⟩ (n + 1) = l.drop r := by
  intro n
  induction n with
  | zero =>
      intro r ck hn hr hck
      have hre : r = l.length := by omega
      subst hre
      rw [collect_succ, iterEq_bitmap_end, if_pos (by simp)]
      simp
  | succ n ih =>
      intro r ck hn hr hck
      by_cases hrlt : r < l.length
      · have hckv := hck hrlt
        subst hckv
        have hner : (r == l.length) = false := by
          simp only [beq_eq_false_iff_ne]; omega
        have hmod : (r + 1) % 18446744073709551616 = r + 1 :=
          Nat.mod_eq_of_lt (by
            have h2 : (2:Nat) ^ 63 < 18446744073709551616 := by norm_num
            omega)
        have hstep : iterStep (.bitmap l) ⟨0, r, l.length, l.getD r 0, r⟩ =
            ⟨0, r + 1, l.length, if r + 1 < l.length then l.getD (r + 1) 0 else l.getD r 0,
              r + 1⟩ := by
          simp [iterStep, hner, hmod, ptrCompressedBitmap]
        rw [List.drop_eq_getElem_cons hrlt, collect_succ, iterEq_bitmap_end, hner,
          if_neg (by simp), hstep,
          ih (r + 1) (if r + 1 < l.length then l.getD (r + 1) 0 else l.getD r 0)
            (by omega) hrlt (fun h => by simp [h])]
        simp [List.getD_eq_getElem?_getD, List.getElem?_eq_getElem hrlt]
      · have hre : r = l.length := by omega
        subst hre
        rw [collect_succ, iterEq_bitmap_end, if_pos (by simp)]
        simp

/-- Iterating a bitmap UnitigColors yields exactly the elements of the
compressed bitmap, in its (ascending) storage order. -/
theorem toList_bitmap (l : List Nat) (hl : l.length < 2 ^ 63) :
    (UnitigColors.bitmap l).toList = l := by
  have hlen : ¬(18446744073709551615 = l.length) := by
    have h2 : (2:Nat) ^ 63 < 18446744073709551615 := by norm_num
    omega
  have hsent : (sentinel == l.length) = false := by
    simp only [beq_eq_false_iff_ne, sentinel]
    exact hlen
  have hbeg : (UnitigColors.bitmap l).begin =
      ⟨0, 0, l.length, if 0 < l.length then l.getD 0 0 else 0, 0⟩ := by
    simp only [UnitigColors.begin, mkIterator, iterStep, UnitigColors.flag,
      UnitigColors.size, ptrCompressedBitmap, hsent]
    norm_num [sentinel, hlen]
  rw [UnitigColors.toList, hbeg]
  simp only [UnitigColors.iterFuel]
  rw [collect_bitmap_from l hl l.length 0
    (if 0 < l.length then l.getD 0 0 else 0)
    (by omega) (by omega) (fun h => by simp [h])]
  simp

/-! ### Claim theorems -/

/-- C5: the claim says that on an Unoccupied UnitigColors every read-only
operation is empty, in particular `begin() == end()`.  The code disagrees:
the iterator constructor gives an Unoccupied set `cs_sz = 62`, `operator++`
touches no flag branch, so `begin()` holds `it_setBits = 0` against
`end()`'s 62, the two compare unequal, and iterating produces 62
dereferences of the zero-initialised ck_id. -/
theorem C5_unoccupied_iteration_not_empty :
    iterEq (UnitigColors.word 3).begin (UnitigColors.word 3).endIter = false ∧
    (UnitigColors.word 3).toList = List.replicate 62 0 ∧
    (UnitigColors.word 3).toList ≠ [] := by decide

/-- C8: iterating an occupied UnitigColors from `begin()` to `end()` yields
its ColorKmerIds in strictly ascending numeric order, in all three
representations.  Iteration reads only the stored state, so the order is
independent of the order in which ids were added. -/
theorem C8_iteration_strictly_ascending (cs : UnitigColors)
    (hocc : cs.isOccupied = true) (hwf : cs.WF) :
    cs.toList.Chain' (· < ·) := by
  cases cs with
  | word w =>
      have hflag : w % 4 = 1 ∨ w % 4 = 2 := by
        have h4 : w % 4 < 4 := Nat.mod_lt _ (by norm_num)
        have h3 : w % 4 ≠ 3 := by
          simpa [UnitigColors.isOccupied, UnitigColors.flag, unoccupiedFlag] using hocc
        have h0 : w % 4 ≠ 0 := hwf.1
        omega
      rcases hflag with h | h
      · have hpw := (List.pairwise_lt_range' 0 maxBitVectorIDs 1 (by simp)).filter (bvTest w)
        rw [toList_bitvec w h, List.chain'_iff_pairwise, bitsToList, List.range_eq_range']
        exact hpw
      · rw [toList_single w h]
        exact List.chain'_singleton _
  | bitmap l =>
      rw [toList_bitmap l hwf.2]
      exact hwf.1

theorem C8_iteration_strictly_ascending_witness :
    (UnitigColors.word ((207 <<< 2) ||| 1)).toList.Chain' (· < ·) :=
  C8_iteration_strictly_ascending _ (by decide)
    ⟨by decide, by decide⟩

/-- C9: for a valid (non-sentinel) ColorKmerId, getColorID returns
`ck_id / K` and getKmerPosition returns `ck_id % K` without logging; on the
all-ones sentinel of a default-constructed iterator both log an error and
return the sentinel unchanged. -/
theorem C9_colorKmerID_accessors (ck K : Nat) (h : ck ≠ sentinel) :
    getColorID ck K = (false, ck / K) ∧
    getKmerPosition ck K = (false, ck % K) ∧
    getColorID sentinel K = (true, sentinel) ∧
    getKmerPosition sentinel K = (true, sentinel) := by
  refine ⟨?_, ?_, ?_, ?_⟩ <;> simp [getColorID, getKmerPosition, h]

theorem C9_colorKmerID_accessors_witness :
    getColorID 10 4 = (false, 2) ∧
    getKmerPosition 10 4 = (false, 2) ∧
    getColorID sentinel 4 = (true, sentinel) ∧
    getKmerPosition sentinel 4 = (true, sentinel) := by
  have h := C9_colorKmerID_accessors 10 4 (by decide)
  simpa using h

/-- C6: for a non-empty mapping with the color-set array allocated,
getColorSet resolves through the DataAccessor byte: byte 0 goes to the
overflow-table entry keyed by the head k-mer (null when absent), a nonzero
byte a to `&color_sets[hash_{a-1}(head) % nb_color_sets]`. -/
theorem C6_getColorSet_dispatch (st : ColorStorage) (um : UnitigMap)
    (h1 : um.isEmpty = false) (h2 : st.allocated = true) :
    (um.hashID = 0 →
      getColorSet st um =
        if (st.km_overflow.find? (fun e => e.1 == um.head)).isSome then
          some (ColorSetLoc.overflow um.head)
        else none) ∧
    (um.hashID ≠ 0 →
      getColorSet st um =
        some (ColorSetLoc.slot
          (st.hashKmer um.head (st.seeds (um.hashID - 1)) % st.color_sets.length))) := by
  constructor
  · intro h0
    simp [getColorSet, h1, h2, h0]
  · intro h0
    simp [getColorSet, h1, h2, h0]

theorem C6_getColorSet_dispatch_witness :
    getColorSet
      { allocated := true, color_sets := [.word 3, .word 3], km_overflow := []
        seeds := fun _ => 0, hashKmer := fun h _ => h }
      { head := 5, hashID := 1 } = some (ColorSetLoc.slot 1) := by
  have h := (C6_getColorSet_dispatch
    { allocated := true, color_sets := [.word 3, .word 3], km_overflow := []
      seeds := fun _ => 0, hashKmer := fun h _ => h }
    { head := 5, hashID := 1 } rfl rfl).2 (by decide)
  rw [h]
  rfl

/-- C10: setColor fails (false, storage untouched) exactly when the mapping
is empty, the array is unallocated, or no UnitigColors is located; it
returns true exactly when the color was added to the located set. -/
theorem C10_setColor_spec (k : Nat) (st : ColorStorage) (um : UnitigMap) (cid : Nat) :
    (um.isEmpty = true ∨ st.allocated = false ∨ getColorSet st um = none →
      setColor k st um cid = (false, st)) ∧
    (∀ loc, getColorSet st um = some loc →
      setColor k st um cid = (true, writeLoc st loc ((readLoc st loc).add k um cid))) ∧
    ((setColor k st um cid).1 = true ↔ ∃ loc, getColorSet st um = some loc) := by
  have hguard : ∀ loc, getColorSet st um = some loc →
      (!um.isEmpty && st.allocated) = true := by
    intro loc hloc
    by_contra hg
    have hnone : getColorSet st um = none := by
      simp only [getColorSet]
      rw [if_neg hg]
    rw [hnone] at hloc
    exact Option.noConfusion hloc
  have hsome : ∀ loc, getColorSet st um = some loc →
      setColor k st um cid = (true, writeLoc st loc ((readLoc st loc).add k um cid)) := by
    intro loc hloc
    simp only [setColor]
    rw [if_pos (hguard loc hloc), hloc]
  refine ⟨?_, hsome, ?_⟩
  · intro h
    rcases h with h | h | h
    · have hg : (!um.isEmpty && st.allocated) = false := by simp [h]
      simp only [setColor]
      rw [if_neg (by simp [hg])]
    · have hg : (!um.isEmpty && st.allocated) = false := by simp [h]
      simp only [setColor]
      rw [if_neg (by simp [hg])]
    · by_cases hg : (!um.isEmpty && st.allocated) = true
      · simp only [setColor]
        rw [if_pos hg, h]
      · simp only [setColor]
        rw [if_neg hg]
  · constructor
    · intro htrue
      match hgc : getColorSet st um with
      | some loc => exact ⟨loc, rfl⟩
      | none =>
          exfalso
          by_cases hg : (!um.isEmpty && st.allocated) = true
          · simp only [setColor] at htrue
            rw [if_pos hg, hgc] at htrue
            exact Bool.noConfusion htrue
          · simp only [setColor] at htrue
            rw [if_neg hg] at htrue
            exact Bool.noConfusion htrue
    · rintro ⟨loc, hloc⟩
      rw [hsome loc hloc]

theorem C10_setColor_spec_witness :
    (setColor 1
      { allocated := true, color_sets := [.word 3, .word 3], km_overflow := []
        seeds := fun _ => 0, hashKmer := fun h _ => h }
      { size := 3, head := 5, hashID := 1 } 0).1 = true := by
  have h := (C10_setColor_spec 1
    { allocated := true, color_sets := [.word 3, .word 3], km_overflow := []
      seeds := fun _ => 0, hashKmer := fun h _ => h }
    { size := 3, head := 5, hashID := 1 } 0).2.1 (ColorSetLoc.slot 1) rfl
  rw [h]

/-- C1: the claim says each sequence of a chunk is colored with its own
source file id.  The code captures the single `file_id` local by reference
in the worker lambda, so every sequence of a chunk is colored with the file
id the reader left behind, the id of the chunk's LAST read: with two files
of one read each and `read_chunksize = 2`, both reads get color 1, while
the claim requires colors 0 and 1. -/
theorem C1_chunk_color_staleness :
    chunkColors 2 [0, 1] = [1, 1] ∧ chunkColors 2 [0, 1] ≠ [0, 1] := by decide

/-- C2 (amended): joinColors re-emits the source colors at a k-mer position
offset of `um_dest.size` (bases) into a merged set indexed by
`K = um_dest.size + um_src.size - k + 1`; the claim's concrete numbers
(merged K = 7, iteration {0,1,2,3,11,12,13}) are what the code computes and
stores when k = 1, where the destination with K=4 has size 4 and the
source with K=3 has size 3. -/
theorem C2_join_scenario_k1 :
    (joinColors 1 joinDemoStorage
        { size := 4, strand := true, head := 0, hashID := 1 }
        { size := 3, strand := true, head := 1, hashID := 1 }).1 = true ∧
    (readLoc (joinColors 1 joinDemoStorage
        { size := 4, strand := true, head := 0, hashID := 1 }
        { size := 3, strand := true, head := 1, hashID := 1 }).2
      (ColorSetLoc.slot 0)).toList = [0, 1, 2, 3, 11, 12, 13] ∧
    (4 + 3) - 1 + 1 = 7 := by
  refine ⟨rfl, ?_, rfl⟩
  decide

/-- C2 counterexample: at k = 5 the same configuration (dest K=4 means
size 8, src K=3 means size 7, color 0 on dest positions 0..3, color 1 on
src positions 0..2, both forward) is re-indexed by K = 8+7-5+1 = 11 at base
offset 8, so the stored merged iteration is {0,1,2,3,19,20,21}, not the
claimed {0,1,2,3,11,12,13}. -/
theorem C2_join_scenario_counterexample :
    (readLoc (joinColors 5 joinDemoStorage
        { size := 8, strand := true, head := 0, hashID := 1 }
        { size := 7, strand := true, head := 1, hashID := 1 }).2
      (ColorSetLoc.slot 0)).toList = [0, 1, 2, 3, 19, 20, 21] ∧
    (readLoc (joinColors 5 joinDemoStorage
        { size := 8, strand := true, head := 0, hashID := 1 }
        { size := 7, strand := true, head := 1, hashID := 1 }).2
      (ColorSetLoc.slot 0)).toList ≠ [0, 1, 2, 3, 11, 12, 13] := by
  constructor
  · decide
  · decide

/-- C3: the claim says the merged colors are written back into the
destination's stored UnitigColors even when `um_dest.strand` is false.  The
code redirects `color_set_dest` to the local `csd_rev` in that case, so the
final `*color_set_dest = new_cs` assigns into the temporary: joinColors
returns true yet the storage is bit-for-bit unchanged, although the merge
it computed differs from what stays stored. -/
theorem C3_join_negative_strand_writeback_lost :
    joinColors 1 joinDemoStorage
        { size := 4, strand := false, head := 0, hashID := 1 }
        { size := 3, strand := true, head := 1, hashID := 1 } =
      (true, joinDemoStorage) ∧
    joinMerge 1 { size := 4, strand := false, head := 0, hashID := 1 }
        { size := 3, strand := true, head := 1, hashID := 1 }
        (.word ((15 <<< 2) ||| 1)) (.word ((56 <<< 2) ||| 1))
      ≠ .word ((15 <<< 2) ||| 1) :=
  ⟨rfl, by decide⟩

theorem initStep_eq_some {hashKmer : Nat → Nat → Nat} {seeds : Nat → Nat} {U H : Nat}
    {st : InitState} {head i : Nat}
    (hfind : (List.range H).find?
        (fun i => (st.slots.getD (hashKmer head (seeds i) % U)
          (.word unoccupiedFlag)).isUnoccupied) = some i) :
    initStep hashKmer seeds U H st head =
      { slots := st.slots.set (hashKmer head (seeds i) % U)
          ((st.slots.getD (hashKmer head (seeds i) % U) (.word unoccupiedFlag)).setOccupied)
        overflow := st.overflow
        assigned := st.assigned ++ [(head, i + 1)] } := by
  simp only [initStep, hfind]

theorem initStep_eq_none {hashKmer : Nat → Nat → Nat} {seeds : Nat → Nat} {U H : Nat}
    {st : InitState} {head : Nat}
    (hfind : (List.range H).find?
        (fun i => (st.slots.getD (hashKmer head (seeds i) % U)
          (.word unoccupiedFlag)).isUnoccupied) = none) :
    initStep hashKmer seeds U H st head =
      { slots := st.slots
        overflow := st.overflow ++ [(head, .word unoccupiedFlag)]
        assigned := st.assigned ++ [(head, 0)] } := by
  simp only [initStep, hfind]

/-- One initColorSets iteration preserves the storage invariants: claimed
slots stay occupied and distinct, and the overflow keys track exactly the
byte-0 unitigs. -/
theorem initStep_inv (hashKmer : Nat → Nat → Nat) (seeds : Nat → Nat) (U H : Nat)
    (hU : 0 < U) (st : InitState) (head : Nat)
    (h1 : st.slots.length = U)
    (h2 : ∀ p ∈ st.assigned, p.2 ≠ 0 →
      (st.slots.getD (slotOf hashKmer seeds U p) (.word unoccupiedFlag)).isOccupied = true)
    (h3 : (st.assigned.filter (fun p => p.2 != 0)).Pairwise
      (fun p q => slotOf hashKmer seeds U p ≠ slotOf hashKmer seeds U q))
    (h4 : st.overflow.map Prod.fst =
      (st.assigned.filter (fun p => p.2 == 0)).map Prod.fst) :
    (initStep hashKmer seeds U H st head).slots.length = U ∧
    (∀ p ∈ (initStep hashKmer seeds U H st head).assigned, p.2 ≠ 0 →
      ((initStep hashKmer seeds U H st head).slots.getD
        (slotOf hashKmer seeds U p) (.word unoccupiedFlag)).isOccupied = true) ∧
    ((initStep hashKmer seeds U H st head).assigned.filter (fun p => p.2 != 0)).Pairwise
      (fun p q => slotOf hashKmer seeds U p ≠ slotOf hashKmer seeds U q) ∧
    (initStep hashKmer seeds U H st head).overflow.map Prod.fst =
      ((initStep hashKmer seeds U H st head).assigned.filter
        (fun p => p.2 == 0)).map Prod.fst := by
  cases hfind : (List.range H).find?
      (fun i => (st.slots.getD (hashKmer head (seeds i) % U)
        (.word unoccupiedFlag)).isUnoccupied) with
  | none =>
      rw [initStep_eq_none hfind]
      refine ⟨h1, ?_, ?_, ?_⟩
      · intro p hp hpz
        rcases List.mem_append.mp hp with hpo | hpn
        · exact h2 p hpo hpz
        · have hpe : p = (head, 0) := by simpa using hpn
          rw [hpe] at hpz
          exact absurd rfl hpz
      · rw [List.filter_append]
        have hz : List.filter (fun p => p.2 != 0) [(head, 0)] = [] := by simp
        rw [hz, List.append_nil]
        exact h3
      · rw [List.filter_append, List.map_append, List.map_append, h4]
        simp
  | some i =>
      rw [initStep_eq_some hfind]
      have hpred := List.find?_some hfind
      have hidx : hashKmer head (seeds i) % U < U := Nat.mod_lt _ hU
      have hclaimfree : ∀ p ∈ st.assigned, p.2 ≠ 0 →
          slotOf hashKmer seeds U p ≠ hashKmer head (seeds i) % U := by
        intro p hp hpz heq
        have hocc := h2 p hp hpz
        rw [heq] at hocc
        simp only [UnitigColors.isUnoccupied, beq_iff_eq] at hpred
        simp only [UnitigColors.isOccupied, bne_iff_ne, ne_eq] at hocc
        exact hocc hpred
      have hgetD_ne : ∀ j, j ≠ hashKmer head (seeds i) % U →
          ((st.slots.set (hashKmer head (seeds i) % U)
            ((st.slots.getD (hashKmer head (seeds i) % U)
              (.word unoccupiedFlag)).setOccupied)).getD j (.word unoccupiedFlag))
            = st.slots.getD j (.word unoccupiedFlag) := by
        intro j hj
        rw [List.getD_eq_getElem?_getD, List.getElem?_set_ne (fun he => hj he.symm),
          List.getD_eq_getElem?_getD]
      have hgetD_idx :
          ((st.slots.set (hashKmer head (seeds i) % U)
            ((st.slots.getD (hashKmer head (seeds i) % U)
              (.word unoccupiedFlag)).setOccupied)).getD (hashKmer head (seeds i) % U)
              (.word unoccupiedFlag))
            = (st.slots.getD (hashKmer head (seeds i) % U)
                (.word unoccupiedFlag)).setOccupied := by
        rw [List.getD_eq_getElem?_getD, List.getElem?_set_self (h1 ▸ hidx)]
        rfl
      have hocc_new : ((st.slots.getD (hashKmer head (seeds i) % U)
          (.word unoccupiedFlag)).setOccupied).isOccupied = true := by
        rw [UnitigColors.setOccupied, if_pos hpred]
        decide
      have hslot_new : slotOf hashKmer seeds U (head, i + 1) =
          hashKmer head (seeds i) % U := by
        simp [slotOf]
      refine ⟨by simp [h1], ?_, ?_, ?_⟩
      · intro p hp hpz
        rcases List.mem_append.mp hp with hpo | hpn
        · rw [hgetD_ne _ (hclaimfree p hpo hpz)]
          exact h2 p hpo hpz
        · have hpe : p = (head, i + 1) := by simpa using hpn
          subst hpe
          rw [hslot_new, hgetD_idx]
          exact hocc_new
      · rw [List.filter_append]
        have hone : List.filter (fun p => p.2 != 0) [(head, i + 1)] = [(head, i + 1)] := by
          simp
        rw [hone, List.pairwise_append]
        refine ⟨h3, List.pairwise_singleton _ _, ?_⟩
        intro p hpf q hq
        have hqe : q = (head, i + 1) := by simpa using hq
        subst hqe
        have hpmem : p ∈ st.assigned := (List.mem_filter.mp hpf).1
        have hpz : p.2 ≠ 0 := by simpa using (List.mem_filter.mp hpf).2
        rw [hslot_new]
        exact hclaimfree p hpmem hpz
      · rw [List.filter_append]
        have hz : List.filter (fun p => p.2 == 0) [(head, i + 1)] = [] := by simp
        rw [hz, List.append_nil]
        exact h4

theorem initColorSets_fold_inv (hashKmer : Nat → Nat → Nat) (seeds : Nat → Nat)
    (U H : Nat) (hU : 0 < U) :
    ∀ (heads : List Nat) (st : InitState),
      st.slots.length = U →
      (∀ p ∈ st.assigned, p.2 ≠ 0 →
        (st.slots.getD (slotOf hashKmer seeds U p) (.word unoccupiedFlag)).isOccupied
          = true) →
      (st.assigned.filter (fun p => p.2 != 0)).Pairwise
        (fun p q => slotOf hashKmer seeds U p ≠ slotOf hashKmer seeds U q) →
      st.overflow.map Prod.fst =
        (st.assigned.filter (fun p => p.2 == 0)).map Prod.fst →
      (heads.foldl (initStep hashKmer seeds U H) st).slots.length = U ∧
      (∀ p ∈ (heads.foldl (initStep hashKmer seeds U H) st).assigned, p.2 ≠ 0 →
        ((heads.foldl (initStep hashKmer seeds U H) st).slots.getD
          (slotOf hashKmer seeds U p) (.word unoccupiedFlag)).isOccupied = true) ∧
      ((heads.foldl (initStep hashKmer seeds U H) st).assigned.filter
        (fun p => p.2 != 0)).Pairwise
        (fun p q => slotOf hashKmer seeds U p ≠ slotOf hashKmer seeds U q) ∧
      (heads.foldl (initStep hashKmer seeds U H) st).overflow.map Prod.fst =
        ((heads.foldl (initStep hashKmer seeds U H) st).assigned.filter
          (fun p => p.2 == 0)).map Prod.fst := by
  intro heads
  induction heads with
  | nil =>
      intro st h1 h2 h3 h4
      exact ⟨h1, h2, h3, h4⟩
  | cons head rest ih =>
      intro st h1 h2 h3 h4
      have hstep := initStep_inv hashKmer seeds U H hU st head h1 h2 h3 h4
      simpa using ih (initStep hashKmer seeds U H st head)
        hstep.1 hstep.2.1 hstep.2.2.1 hstep.2.2.2

/-- C7: after initColorSets, every unitig whose DataAccessor byte a is
nonzero has its slot `hash_{a-1}(head) % U` occupied and claimed for itself
alone (distinct assigned unitigs resolve to distinct slots), and the
overflow table holds exactly the head k-mers of the unitigs whose byte is
0, in order. -/
theorem C7_initColorSets_invariants (hashKmer : Nat → Nat → Nat) (seeds : Nat → Nat)
    (H : Nat) (heads : List Nat) :
    (∀ p ∈ (initColorSets hashKmer seeds H heads).assigned, p.2 ≠ 0 →
      ((initColorSets hashKmer seeds H heads).slots.getD
        (slotOf hashKmer seeds heads.length p) (.word unoccupiedFlag)).isOccupied
        = true) ∧
    ((initColorSets hashKmer seeds H heads).assigned.filter
      (fun p => p.2 != 0)).Pairwise
      (fun p q => slotOf hashKmer seeds heads.length p ≠
        slotOf hashKmer seeds heads.length q) ∧
    (initColorSets hashKmer seeds H heads).overflow.map Prod.fst =
      ((initColorSets hashKmer seeds H heads).assigned.filter
        (fun p => p.2 == 0)).map Prod.fst := by
  cases heads with
  | nil => simp [initColorSets]
  | cons head rest =>
      have hU : 0 < (head :: rest).length := by simp
      have hmain := initColorSets_fold_inv hashKmer seeds (head :: rest).length H hU
        (head :: rest)
        { slots := List.replicate (head :: rest).length (.word unoccupiedFlag)
          overflow := []
          assigned := [] }
        (by simp) (by simp) (by simp) (by simp)
      exact ⟨hmain.2.1, hmain.2.2.1, hmain.2.2.2⟩

theorem C7_initColorSets_invariants_witness :
    (initColorSets (fun h s => h + s) (fun i => i) 2 [5, 6]).overflow.map Prod.fst =
      ((initColorSets (fun h s => h + s) (fun i => i) 2 [5, 6]).assigned.filter
        (fun p => p.2 == 0)).map Prod.fst :=
  (C7_initColorSets_invariants (fun h s => h + s) (fun i => i) 2 [5, 6]).2.2

/-! ### Content of addId on the local bit vector -/

theorem or_two_pow_mod_four (w i : Nat) : (w ||| (1 <<< (i + 2))) % 4 = w % 4 := by
  have h4 : (4 : Nat) = 2 ^ 2 := by norm_num
  have hmask : ∀ x : Nat, x % 4 = x &&& 3 := by
    intro x
    have := Nat.and_pow_two_sub_one_eq_mod x 2
    norm_num at this
    omega
  rw [hmask, hmask, Nat.and_distrib_right]
  have hz : (1 <<< (i + 2)) &&& 3 = 0 := by
    have : (1 <<< (i + 2)) % 4 = 0 := by
      rw [Nat.shiftLeft_eq, one_mul, pow_add]
      norm_num [Nat.mul_mod_left]
    rw [← hmask]
    exact this
  rw [hz, Nat.or_zero]

theorem or_two_pow_lt (w i : Nat) (h64 : w < 2 ^ 64) (hi : i < 62) :
    w ||| (1 <<< (i + 2)) < 2 ^ 64 := by
  refine Nat.or_lt_two_pow h64 ?_
  rw [Nat.shiftLeft_eq, one_mul]
  exact Nat.pow_lt_pow_right (by norm_num) (by omega)

theorem bvTest_or_two_pow (w i b : Nat) :
    bvTest (w ||| (1 <<< (i + 2))) b = (bvTest w b || (i == b)) := by
  rw [bvTest_eq_testBit, bvTest_eq_testBit, Nat.testBit_lor, Nat.shiftLeft_eq, one_mul]
  by_cases h : i = b
  · subst h
    simp [Nat.testBit_two_pow_self]
  · rw [Nat.testBit_two_pow_of_ne (by omega)]
    simp [h]

theorem bvTest_one (b : Nat) : bvTest 1 b = false := by
  have h0 : (1 : Nat) >>> (b + 2) = 0 := by
    rw [Nat.shiftRight_eq_div_pow]
    apply Nat.div_eq_of_lt
    calc (1 : Nat) < 4 := by norm_num
    _ = 2 ^ 2 := by norm_num
    _ ≤ 2 ^ (b + 2) := Nat.pow_le_pow_right (by norm_num) (by omega)
  simp [bvTest, h0]

theorem bvTest_lt (w j : Nat) (h64 : w < 2 ^ 64) (hb : bvTest w j = true) : j < 62 := by
  rw [bvTest_eq_testBit] at hb
  have hge := Nat.testBit_implies_ge hb
  by_contra hj
  have hle : (2 : Nat) ^ 64 ≤ 2 ^ (j + 2) := Nat.pow_le_pow_right (by norm_num) (by omega)
  omega

theorem mem_bitsToList (w i : Nat) : i ∈ bitsToList w ↔ (i < 62 ∧ bvTest w i = true) := by
  simp [bitsToList, List.mem_filter, List.mem_range, maxBitVectorIDs]

theorem mem_sortedInsert (x y : Nat) : ∀ (l : List Nat),
    x ∈ sortedInsert y l ↔ (x = y ∨ x ∈ l)
  | [] => by simp [sortedInsert]
  | z :: zs => by
      simp only [sortedInsert]
      by_cases h1 : y < z
      · rw [if_pos h1]
        simp [List.mem_cons]
      · rw [if_neg h1]
        by_cases h2 : y = z
        · rw [if_pos h2]
          subst h2
          simp only [List.mem_cons]
          tauto
        · rw [if_neg h2, List.mem_cons, List.mem_cons, mem_sortedInsert x y zs]
          tauto

theorem pairwise_sortedInsert (y : Nat) : ∀ (l : List Nat), l.Pairwise (· < ·) →
    (sortedInsert y l).Pairwise (· < ·)
  | [], _ => by simp [sortedInsert]
  | z :: zs, h => by
      simp only [sortedInsert]
      have hz := List.pairwise_cons.mp h
      by_cases h1 : y < z
      · rw [if_pos h1]
        refine List.pairwise_cons.mpr ⟨?_, h⟩
        intro b hb
        rcases List.mem_cons.mp hb with rfl | hbz
        · exact h1
        · exact lt_trans h1 (hz.1 b hbz)
      · rw [if_neg h1]
        by_cases h2 : y = z
        · rw [if_pos h2]
          exact h
        · rw [if_neg h2]
          refine List.pairwise_cons.mpr ⟨?_, pairwise_sortedInsert y zs hz.2⟩
          intro b hb
          rcases (mem_sortedInsert b y zs).mp hb with rfl | hbz
          · omega
          · exact hz.1 b hbz

theorem memId_bv (m j : Nat) (hm1 : m % 4 = 1) :
    (UnitigColors.word m).memId j = bvTest m j := by
  simp [UnitigColors.memId, hm1, localBitVectorColor]

theorem memId_single (m j : Nat) (hm2 : m % 4 = 2) :
    (UnitigColors.word m).memId j = (j == m >>> 2) := by
  simp [UnitigColors.memId, hm2, localBitVectorColor, localSingleColor]

theorem memId_unocc (m j : Nat) (hm3 : m % 4 = 3) :
    (UnitigColors.word m).memId j = false := by
  simp [UnitigColors.memId, hm3, localBitVectorColor, localSingleColor]

theorem memId_bitmap (l : List Nat) (j : Nat) :
    (UnitigColors.bitmap l).memId j = true ↔ j ∈ l := by
  simp only [UnitigColors.memId]
  exact List.elem_iff

/-- The iteration of an occupied, well-formed UnitigColors visits exactly
the ColorKmerIds the tagged union stores. -/
theorem mem_toList_iff (cs : UnitigColors) (hocc : cs.isOccupied = true)
    (hwf : cs.WF) (j : Nat) :
    j ∈ cs.toList ↔ cs.memId j = true := by
  cases cs with
  | word w =>
      obtain ⟨hnz, h64⟩ := hwf
      have hflag : w % 4 = 1 ∨ w % 4 = 2 := by
        have h4 : w % 4 < 4 := Nat.mod_lt _ (by norm_num)
        have h3 : w % 4 ≠ 3 := by
          simpa [UnitigColors.isOccupied, UnitigColors.flag, unoccupiedFlag] using hocc
        omega
      rcases hflag with h | h
      · rw [toList_bitvec w h, mem_bitsToList, memId_bv w j h]
        constructor
        · rintro ⟨_, hb⟩
          exact hb
        · intro hb
          exact ⟨bvTest_lt w j h64 hb, hb⟩
      · rw [toList_single w h, memId_single w j h]
        simp
  | bitmap l =>
      rw [toList_bitmap l hwf.2]
      exact (memId_bitmap l j).symm

theorem addId_bv (w id : Nat) (hw : w % 4 = 1) (hid : id < 62) :
    addId (.word w) id = .word (w ||| (1 <<< (id + 2))) := by
  simp [addId, hw, unoccupiedFlag, localBitVectorColor, maxBitVectorIDs, hid]

theorem addId_bv_big (w id : Nat) (hw : w % 4 = 1) (hid : ¬ id < 62) :
    addId (.word w) id = .bitmap (sortedInsert id (bitsToList w)) := by
  simp [addId, hw, unoccupiedFlag, localBitVectorColor, maxBitVectorIDs, hid]

theorem addId_unocc (id : Nat) (hid : id < 62) :
    addId (.word unoccupiedFlag) id = .word ((1 <<< (id + 2)) ||| localBitVectorColor) := by
  simp [addId, unoccupiedFlag, maxBitVectorIDs, hid]

theorem addId_unocc_big (id : Nat) (hid : ¬ id < 62) :
    addId (.word unoccupiedFlag) id = .bitmap [id] := by
  simp [addId, unoccupiedFlag, maxBitVectorIDs, hid]

/-- One addId step, on any state an add chain can reach from a
default-constructed ColorSet: the state stays reachable and the stored
ids grow by exactly the inserted one, through every promotion (unoccupied
to bit vector, bit vector to bitmap on an id of 62 or more, bitmap
insertion). -/
theorem addId_memId (acc : UnitigColors) (x : Nat) (h : AccOK acc) :
    AccOK (addId acc x) ∧
    (∀ j, (addId acc x).memId j = true ↔ (j = x ∨ acc.memId j = true)) := by
  rcases h with h3 | ⟨m, rfl, hm1, hm64⟩ | ⟨l, rfl, hl⟩
  · subst h3
    by_cases hx : x < 62
    · rw [addId_unocc x hx]
      have hm1 : ((1 <<< (x + 2)) ||| localBitVectorColor) % 4 = 1 := by
        rw [localBitVectorColor, Nat.or_comm, or_two_pow_mod_four]
      have h64 : ((1 <<< (x + 2)) ||| localBitVectorColor) < 2 ^ 64 := by
        rw [localBitVectorColor, Nat.or_comm]
        exact or_two_pow_lt 1 x (by norm_num) hx
      refine ⟨Or.inr (Or.inl ⟨_, rfl, hm1, h64⟩), ?_⟩
      intro j
      rw [memId_bv _ j hm1, memId_unocc _ j (by decide), localBitVectorColor,
        Nat.or_comm, bvTest_or_two_pow, bvTest_one]
      constructor
      · intro hb
        exact Or.inl (beq_iff_eq.mp (by simpa using hb)).symm
      · rintro (rfl | hf)
        · simp
        · exact Bool.noConfusion hf
    · rw [addId_unocc_big x hx]
      refine ⟨Or.inr (Or.inr ⟨[x], rfl, List.pairwise_singleton _ _⟩), ?_⟩
      intro j
      rw [memId_unocc _ j (by decide)]
      constructor
      · intro hb
        exact Or.inl (by simpa using (memId_bitmap [x] j).mp hb)
      · rintro (rfl | hf)
        · exact (memId_bitmap [j] j).mpr (by simp)
        · exact Bool.noConfusion hf
  · by_cases hx : x < 62
    · rw [addId_bv m x hm1 hx]
      have hm1' : (m ||| (1 <<< (x + 2))) % 4 = 1 := by
        rw [or_two_pow_mod_four, hm1]
      have h64' : (m ||| (1 <<< (x + 2))) < 2 ^ 64 := or_two_pow_lt m x hm64 hx
      refine ⟨Or.inr (Or.inl ⟨_, rfl, hm1', h64'⟩), ?_⟩
      intro j
      rw [memId_bv _ j hm1', memId_bv _ j hm1, bvTest_or_two_pow]
      constructor
      · intro hb
        rcases Bool.or_eq_true_iff.mp hb with hb | hb
        · exact Or.inr hb
        · exact Or.inl (beq_iff_eq.mp hb).symm
      · rintro (rfl | hb)
        · simp
        · rw [hb]
          simp
    · rw [addId_bv_big m x hm1 hx]
      have hpw : (bitsToList m).Pairwise (· < ·) := by
        have hr := (List.pairwise_lt_range' 0 maxBitVectorIDs 1 (by simp)).filter (bvTest m)
        simpa [bitsToList, List.range_eq_range'] using hr
      refine ⟨Or.inr (Or.inr ⟨_, rfl, pairwise_sortedInsert x _ hpw⟩), ?_⟩
      intro j
      rw [memId_bv _ j hm1]
      constructor
      · intro hb
        rcases (mem_sortedInsert j x (bitsToList m)).mp ((memId_bitmap _ j).mp hb) with
          rfl | hmem2
        · exact Or.inl rfl
        · exact Or.inr ((mem_bitsToList m j).mp hmem2).2
      · rintro (rfl | hb)
        · exact (memId_bitmap _ j).mpr ((mem_sortedInsert j j _).mpr (Or.inl rfl))
        · refine (memId_bitmap _ j).mpr ((mem_sortedInsert j x _).mpr (Or.inr ?_))
          exact (mem_bitsToList m j).mpr ⟨bvTest_lt m j hm64 hb, hb⟩
  · have haddeq : addId (.bitmap l) x = .bitmap (sortedInsert x l) := rfl
    rw [haddeq]
    refine ⟨Or.inr (Or.inr ⟨_, rfl, pairwise_sortedInsert x l hl⟩), ?_⟩
    intro j
    constructor
    · intro hb
      rcases (mem_sortedInsert j x l).mp ((memId_bitmap _ j).mp hb) with rfl | hm
      · exact Or.inl rfl
      · exact Or.inr ((memId_bitmap l j).mpr hm)
    · rintro (rfl | hb)
      · exact (memId_bitmap _ j).mpr ((mem_sortedInsert j j l).mpr (Or.inl rfl))
      · exact (memId_bitmap _ j).mpr
          ((mem_sortedInsert j x l).mpr (Or.inr ((memId_bitmap l j).mp hb)))

/-- Content of the conditional-insert fold extractColors runs over the
source ids, starting from any reachable state: the stored ids of the
result are those of the start plus the images of the passing ids, with no
restriction on the source's length or on how large the inserted ids get. -/
theorem extract_fold_memId (P : Nat → Prop) [DecidablePred P] (g : Nat → Nat) :
    ∀ (ids : List Nat) (acc : UnitigColors), AccOK acc →
      AccOK (ids.foldl (fun a id => if P id then addId a (g id) else a) acc) ∧
      (∀ j, (ids.foldl (fun a id => if P id then addId a (g id) else a) acc).memId j
          = true ↔
        (acc.memId j = true ∨ ∃ id ∈ ids, P id ∧ g id = j)) := by
  intro ids
  induction ids with
  | nil =>
      intro acc hacc
      exact ⟨hacc, fun j => by simp⟩
  | cons id rest ih =>
      intro acc hacc
      by_cases hP : P id
      · have hstep := addId_memId acc (g id) hacc
        obtain ⟨hAcc2, hmem2⟩ := ih (addId acc (g id)) hstep.1
        have hfold : (id :: rest).foldl (fun a id => if P id then addId a (g id) else a) acc
            = rest.foldl (fun a id => if P id then addId a (g id) else a)
              (addId acc (g id)) := by
          simp [hP]
        refine ⟨by rw [hfold]; exact hAcc2, ?_⟩
        intro j
        rw [hfold, hmem2 j, hstep.2 j]
        constructor
        · rintro ((rfl | hm) | ⟨x, hx, hPx, hgx⟩)
          · exact Or.inr ⟨id, by simp, hP, rfl⟩
          · exact Or.inl hm
          · exact Or.inr ⟨x, by simp [hx], hPx, hgx⟩
        · rintro (hm | ⟨x, hx, hPx, hgx⟩)
          · exact Or.inl (Or.inr hm)
          · rcases List.mem_cons.mp hx with rfl | hxr
            · exact Or.inl (Or.inl hgx.symm)
            · exact Or.inr ⟨x, hxr, hPx, hgx⟩
      · obtain ⟨hAcc2, hmem2⟩ := ih acc hacc
        have hfold : (id :: rest).foldl (fun a id => if P id then addId a (g id) else a) acc
            = rest.foldl (fun a id => if P id then addId a (g id) else a) acc := by
          simp [hP]
        refine ⟨by rw [hfold]; exact hAcc2, ?_⟩
        intro j
        rw [hfold, hmem2 j]
        constructor
        · rintro (hm | ⟨x, hx, hPx, hgx⟩)
          · exact Or.inl hm
          · exact Or.inr ⟨x, by simp [hx], hPx, hgx⟩
        · rintro (hm | ⟨x, hx, hPx, hgx⟩)
          · exact Or.inl hm
          · rcases List.mem_cons.mp hx with rfl | hxr
            · exact absurd hPx hP
            · exact Or.inr ⟨x, hxr, hPx, hgx⟩

theorem add_one (cs : UnitigColors) (k sz d cid : Nat) (s : Bool) :
    cs.add k { pos_unitig := 0, dist := d, len := 1, size := sz, strand := s,
               isEmpty := false, head := 0, hashID := 0 } cid
      = addId cs (cid * (sz - k + 1) + (if s = true then d else (sz - k + 1) - 1 - d)) := by
  cases s
  · simp only [UnitigColors.add]
    rfl
  · simp only [UnitigColors.add]
    rfl

/-- C4 (amended): extractColors(um), for a non-empty mapping whose located
color set is occupied, returns a new UnitigColors storing exactly one entry
for every ColorKmerId (color_id, pos) of the source unitig's color set
whose pos lies in [um.dist, um.dist + um.len): the entry's position is
pos - um.dist on a forward mapping and is mirrored to K - 1 - (pos -
um.dist) on a reverse one, re-indexed to a fake unitig of total size
um.len, i.e. k-mer count K = um.len - k + 1 (= um.len only when k = 1),
using a single loop over the source colors.  Universal over the source's
representation (bit vector, single or bitmap, under the machine-word and
Roaring invariants), over both strands, over empty extraction windows, and
over re-indexed ids of 62 or more (which promote the result to a
bitmap). -/
theorem C4_extractColors_spec (k : Nat) (st : ColorStorage) (um : UnitigMap)
    (loc : ColorSetLoc)
    (h1 : um.isEmpty = false) (h2 : st.allocated = true)
    (hloc : getColorSet st um = some loc)
    (hocc : (readLoc st loc).isOccupied = true)
    (hwf : (readLoc st loc).WF) :
    ∀ j, (extractColors k st um).memId j = true ↔
      ∃ i, (readLoc st loc).memId i = true ∧
        um.dist ≤ i - (i / (um.size - k + 1)) * (um.size - k + 1) ∧
        i - (i / (um.size - k + 1)) * (um.size - k + 1) < um.dist + um.len ∧
        j = (i / (um.size - k + 1)) * (um.len - k + 1) +
          (if um.strand = true
            then i - (i / (um.size - k + 1)) * (um.size - k + 1) - um.dist
            else (um.len - k + 1) - 1 -
              (i - (i / (um.size - k + 1)) * (um.size - k + 1) - um.dist)) := by
  have hguard : (!um.isEmpty && st.allocated) = true := by rw [h1, h2]; rfl
  have hunf1 : extractColors k st um =
      (readLoc st loc).toList.foldl
        (fun new_cs id =>
          if um.dist ≤ id - (id / (um.size - k + 1)) * (um.size - k + 1) ∧
              id - (id / (um.size - k + 1)) * (um.size - k + 1) < um.dist + um.len then
            new_cs.add k
              { pos_unitig := 0,
                dist := id - (id / (um.size - k + 1)) * (um.size - k + 1) - um.dist,
                len := 1, size := um.len, strand := um.strand, isEmpty := false,
                head := 0, hashID := 0 } (id / (um.size - k + 1))
          else new_cs)
        (.word unoccupiedFlag) := by
    rw [extractColors, if_pos hguard, hloc]
  have hfun : (fun (new_cs : UnitigColors) (id : Nat) =>
      if um.dist ≤ id - (id / (um.size - k + 1)) * (um.size - k + 1) ∧
          id - (id / (um.size - k + 1)) * (um.size - k + 1) < um.dist + um.len then
        new_cs.add k
          { pos_unitig := 0,
            dist := id - (id / (um.size - k + 1)) * (um.size - k + 1) - um.dist,
            len := 1, size := um.len, strand := um.strand, isEmpty := false,
            head := 0, hashID := 0 } (id / (um.size - k + 1))
      else new_cs)
      = (fun (acc : UnitigColors) (id : Nat) =>
        if um.dist ≤ id - (id / (um.size - k + 1)) * (um.size - k + 1) ∧
            id - (id / (um.size - k + 1)) * (um.size - k + 1) < um.dist + um.len then
          addId acc ((id / (um.size - k + 1)) * (um.len - k + 1) +
            (if um.strand = true
              then id - (id / (um.size - k + 1)) * (um.size - k + 1) - um.dist
              else (um.len - k + 1) - 1 -
                (id - (id / (um.size - k + 1)) * (um.size - k + 1) - um.dist)))
        else acc) := by
    funext acc id
    by_cases hc : um.dist ≤ id - (id / (um.size - k + 1)) * (um.size - k + 1) ∧
        id - (id / (um.size - k + 1)) * (um.size - k + 1) < um.dist + um.len
    · rw [if_pos hc, if_pos hc, add_one]
    · rw [if_neg hc, if_neg hc]
  obtain ⟨_hAcc, hmem⟩ := extract_fold_memId
    (fun id => um.dist ≤ id - (id / (um.size - k + 1)) * (um.size - k + 1) ∧
      id - (id / (um.size - k + 1)) * (um.size - k + 1) < um.dist + um.len)
    (fun id => (id / (um.size - k + 1)) * (um.len - k + 1) +
      (if um.strand = true
        then id - (id / (um.size - k + 1)) * (um.size - k + 1) - um.dist
        else (um.len - k + 1) - 1 -
          (id - (id / (um.size - k + 1)) * (um.size - k + 1) - um.dist)))
    (readLoc st loc).toList (.word unoccupiedFlag) (Or.inl rfl)
  intro j
  rw [hunf1, hfun, hmem j, memId_unocc unoccupiedFlag j (by decide)]
  constructor
  · rintro (hf | ⟨i, hi, hPi, hgi⟩)
    · exact Bool.noConfusion hf
    · exact ⟨i, (mem_toList_iff _ hocc hwf i).mp hi, hPi.1, hPi.2, hgi.symm⟩
  · rintro ⟨i, hi, hdl, hdu, hj⟩
    exact Or.inr ⟨i, (mem_toList_iff _ hocc hwf i).mpr hi, ⟨hdl, hdu⟩, hj.symm⟩

theorem C4_extractColors_spec_witness :
    (extractColors 1
      { allocated := true, color_sets := [.word ((207 <<< 2) ||| 1)], km_overflow := []
        seeds := fun _ => 0, hashKmer := fun h _ => h }
      { dist := 1, len := 2, size := 4, strand := true, head := 0, hashID := 1 }).memId 3
      = true := by
  have h := C4_extractColors_spec 1
    { allocated := true, color_sets := [.word ((207 <<< 2) ||| 1)], km_overflow := []
      seeds := fun _ => 0, hashKmer := fun h _ => h }
    { dist := 1, len := 2, size := 4, strand := true, head := 0, hashID := 1 }
    (ColorSetLoc.slot 0)
    rfl rfl rfl (by decide)
    (by show ((207 <<< 2) ||| 1 : Nat) % 4 ≠ 0 ∧ ((207 <<< 2) ||| 1 : Nat) < 2 ^ 64
        decide)
    3
  exact h.mpr ⟨6, by decide⟩

/-- C4 counterexample, both divergences of the claim.  K: a source of size
4 (k-mer count 3 at k = 2) holding only id 4 = (color 1, pos 1), extracted
with dist 0 and len 3, yields the single id 1 * (3 - 2 + 1) + 1 = 3, while
the claim's K = um.len = 3 demands 1 * 3 + 1 = 4.  Position: a reverse
(strand = false) source of size 4 at k = 1 holding only id 0 = (color 0,
pos 0), extracted with dist 0 and len 2, yields id 1 (the mirrored
position K - 1 - 0 with K = 2), while the claim's entry (color 0, pos -
um.dist = 0) demands id 0. -/
theorem C4_extractColors_counterexample :
    (extractColors 2
      { allocated := true, color_sets := [.word ((16 <<< 2) ||| 1)], km_overflow := []
        seeds := fun _ => 0, hashKmer := fun h _ => h }
      { dist := 0, len := 3, size := 4, strand := true, head := 0, hashID := 1 }).toList
      = [3] ∧
    (extractColors 2
      { allocated := true, color_sets := [.word ((16 <<< 2) ||| 1)], km_overflow := []
        seeds := fun _ => 0, hashKmer := fun h _ => h }
      { dist := 0, len := 3, size := 4, strand := true, head := 0, hashID := 1 }).toList
      ≠ [4] ∧
    (extractColors 1
      { allocated := true, color_sets := [.word ((1 <<< 2) ||| 1)], km_overflow := []
        seeds := fun _ => 0, hashKmer := fun h _ => h }
      { dist := 0, len := 2, size := 4, strand := false, head := 0, hashID := 1 }).toList
      = [1] ∧
    (extractColors 1
      { allocated := true, color_sets := [.word ((1 <<< 2) ||| 1)], km_overflow := []
        seeds := fun _ => 0, hashKmer := fun h _ => h }
      { dist := 0, len := 2, size := 4, strand := false, head := 0, hashID := 1 }).toList
      ≠ [0] := by decide

end Bifrost
